import Mathlib

/-!
Verification development for the semblance-based velocity-picking engine of
SeismicPro (`src/seismicpro/src/utils.py`).  The numeric code is embedded
shallowly over `ℚ` (exact-real semantics of the floating-point source):
gathers are `List (List ℚ)` with rows indexed by time sample and columns by
offset, and out-of-range reads that the source guards explicitly are modelled
with the same guards.  Functions of the source that can raise a Python
exception (`scipy.interpolate.interp1d` with fewer than two control points)
are embedded with `Option`, `none` standing for the raised exception.
-/

namespace SeismicPro

/-- Numerical guard added to the semblance denominator; the source hardcodes `1e-6`. -/
def eps : ℚ := 1 / 1000000

/-- Floor of the square root of a nonnegative rational, computed through
`Nat.sqrt`: for `q = a / b` in lowest terms, `⌊√(a/b)⌋ = ⌊√(a*b)⌋ / b`. -/
def ratSqrtFloor (q : ℚ) : ℕ := Nat.sqrt (q.num.toNat * q.den) / q.den

/-- Sample index computed by `correct_time` for one offset:
`int(sqrt(time**2 + offset**2/velocity**2) / dt)`.  The division by `dt > 0`
is folded under the square root as `/ dt^2`. -/
def corrIdx (time offset velocity dt : ℚ) : ℕ :=
  ratSqrtFloor ((time ^ 2 + offset ^ 2 / velocity ^ 2) / dt ^ 2)

/-- Embedding of `correct_time(seismogram, time, offsets, velocity, dt)`:
the NMO-corrected row, one amplitude per offset, zero when the corrected
index falls outside the gather's time range. -/
def correct_time (seismogram : List (List ℚ)) (time : ℚ) (offsets : List ℚ)
    (velocity dt : ℚ) : List ℚ :=
  (List.range offsets.length).map fun i =>
    let ct := corrIdx time (offsets.getD i 0) velocity dt
    if ct < seismogram.length then (seismogram.getD ct []).getD i 0 else 0

/-- The array `nmo` built inside `calc_semblance`: row `i` is
`correct_time(seismogram, times[i], offsets, velocity, dt)`. -/
def nmoGather (seismogram : List (List ℚ)) (times offsets : List ℚ)
    (velocity dt : ℚ) : List (List ℚ) :=
  times.map fun t => correct_time seismogram t offsets velocity dt

/-- Python slice `l[lo:hi]` for natural bounds (silently clipped at the list
end, empty when `hi ≤ lo`). -/
def windowSlice {α : Type} (l : List α) (lo hi : ℕ) : List α :=
  (l.drop lo).take (hi - lo)

/-- One semblance cell: windowed stacked energy over windowed trace energy,
`sum(s2[lo:hi]) / (m * sum(sq[lo:hi]) + e)`. -/
def semblanceFrac (s2 sq : List ℚ) (m lo hi : ℕ) (e : ℚ) : ℚ :=
  (windowSlice s2 lo hi).sum / (m * (windowSlice sq lo hi).sum + e)

/-- Cell `(i, ·)` of the full-variant panel at trial velocity `v`, with the
source's window `[max(0, i-window) : min(len(nmo)-1, i+window)]` (a Python
slice, upper end exclusive) and denominator guard `e`. -/
def semblanceAtEps (seismogram : List (List ℚ)) (times offsets : List ℚ)
    (v dt : ℚ) (window i : ℕ) (e : ℚ) : ℚ :=
  let nmo := nmoGather seismogram times offsets v dt
  semblanceFrac (nmo.map fun r => r.sum ^ 2)
    (nmo.map fun r => (r.map fun x => x ^ 2).sum)
    offsets.length (i - window) (min (seismogram.length - 1) (i + window)) e

/-- `calc_semblance` generalized over the denominator guard (the source fixes
it to `1e-6`); rows are time samples, columns are trial velocities. -/
def calcSemblanceEps (seismogram : List (List ℚ)) (times offsets velocities : List ℚ)
    (dt : ℚ) (window : ℕ) (e : ℚ) : List (List ℚ) :=
  (List.range seismogram.length).map fun i =>
    velocities.map fun v => semblanceAtEps seismogram times offsets v dt window i e

/-- Embedding of `calc_semblance(seismogram, times, offsets, velocities, dt, window)`. -/
def calc_semblance (seismogram : List (List ℚ)) (times offsets velocities : List ℚ)
    (dt : ℚ) (window : ℕ) : List (List ℚ) :=
  calcSemblanceEps seismogram times offsets velocities dt window eps

/-- First index minimizing `|velocities[j] - x|`, ties to the smallest index;
this is `np.argmin(np.abs(x - velocities))`. -/
def argminAbs (velocities : List ℚ) (x : ℚ) : ℕ :=
  (List.range velocities.length).foldl
    (fun best j =>
      if |velocities.getD j 0 - x| < |velocities.getD best 0 - x| then j else best) 0

/-- Embedding of `calc_bound(interp_vel, velocities, p)`: nearest-grid-index
of `interp_vel * p` per time sample. -/
def calc_bound (interp_vel velocities : List ℚ) (p : ℚ) : List ℕ :=
  interp_vel.map fun v => argminAbs velocities (v * p)

/-- Embedding of `calc_bounds(interp_vel, velocities, p)`: clip the reference
curve into the grid range, then nearest indices of `reference*(1-p)` and
`reference*(1+p)`. -/
def calc_bounds (interp_vel velocities : List ℚ) (p : ℚ) : List ℕ × List ℕ :=
  let clipped := interp_vel.map fun v =>
    min (max v (velocities.headD 0)) (velocities.getLastD 0)
  (calc_bound clipped velocities (1 - p), calc_bound clipped velocities (1 + p))

/-- First index holding `j`, `np.where(l == j)[0][0]` (`none` when absent). -/
def firstIdxOf? (l : List ℕ) (j : ℕ) : Option ℕ :=
  match l with
  | [] => none
  | a :: xs => if a = j then some 0 else (firstIdxOf? xs j).map (· + 1)

/-- Last index holding `j`, `np.where(l == j)[0][-1]` (`none` when absent). -/
def lastIdxOf? (l : List ℕ) (j : ℕ) : Option ℕ :=
  (firstIdxOf? l.reverse j).map fun k => l.length - 1 - k

/-- `t_low` of `calc_partial_semblance`: first time sample whose upper bound
equals the velocity index, defaulting to `0`. -/
def tLow (upper_bounds : List ℕ) (j : ℕ) : ℕ :=
  (firstIdxOf? upper_bounds j).getD 0

/-- `t_up` of `calc_partial_semblance`: last time sample whose lower bound
equals the velocity index, defaulting to `len(times) - 1`. -/
def tUp (lower_bounds : List ℕ) (nTimes j : ℕ) : ℕ :=
  (lastIdxOf? lower_bounds j).getD (nTimes - 1)

/-- `np.min` of a nonempty list of naturals (0 on the empty list, on which
numpy would raise). -/
def natListMin : List ℕ → ℕ
  | [] => 0
  | x :: xs => xs.foldl min x

/-- `np.max` of a nonempty list of naturals (0 on the empty list). -/
def natListMax : List ℕ → ℕ
  | [] => 0
  | x :: xs => xs.foldl max x

/-- Embedding of `calc_partial_semblance`: cells are zero outside the
corridor; inside, column `i` is evaluated on the corrected rows
`times[t_low_window : t_up_window + 1]` with the unclipped Python slice
`[max(0, t_rel-window) : t_rel+window]` of the source. -/
def calcPartialSemblance (seismogram : List (List ℚ)) (times offsets velocities : List ℚ)
    (lower_bounds upper_bounds : List ℕ) (dt : ℚ) (window : ℕ) : List (List ℚ) :=
  (List.range seismogram.length).map fun t =>
    (List.range velocities.length).map fun i =>
      if natListMin lower_bounds ≤ i ∧ i ≤ natListMax upper_bounds ∧
          tLow upper_bounds i ≤ t ∧ t ≤ tUp lower_bounds times.length i then
        let t_low_window := tLow upper_bounds i - window
        let t_up_window :=
          min (times.length - 1) (tUp lower_bounds times.length i + window)
        let tmp := ((times.drop t_low_window).take (t_up_window - t_low_window + 1)).map
          fun tm => correct_time seismogram tm offsets (velocities.getD i 0) dt
        semblanceFrac (tmp.map fun r => r.sum ^ 2)
          (tmp.map fun r => (r.map fun x => x ^ 2).sum)
          offsets.length (t - t_low_window - window) (t - t_low_window + window) eps
      else 0

/-- The gather with every amplitude multiplied by `c`. -/
def scaleGather (c : ℚ) (seismogram : List (List ℚ)) : List (List ℚ) :=
  seismogram.map fun r => r.map fun x => c * x

/-- Semblance cell as claim C2 words it: an inclusive symmetric window
`[t-window, t+window]` clipped to the valid index range `[0, n-1]`, stack
energy over `num_offsets` times trace energy plus `eps`.  This definition is
written from the specification, to be compared against `calc_semblance`. -/
def claimedSemblanceCell (seismogram : List (List ℚ)) (times offsets : List ℚ)
    (v dt : ℚ) (window t : ℕ) : ℚ :=
  (∑ k in Finset.Icc (t - window) (min (seismogram.length - 1) (t + window)),
      ((correct_time seismogram (times.getD k 0) offsets v dt).sum) ^ 2) /
  (offsets.length *
    (∑ k in Finset.Icc (t - window) (min (seismogram.length - 1) (t + window)),
      ((correct_time seismogram (times.getD k 0) offsets v dt).map fun x => x ^ 2).sum)
    + eps)

/-- `np.min` of a nonempty rational list (0 on the empty list, on which numpy
would raise). -/
def listMinQ (l : List ℚ) : ℚ :=
  match l with
  | [] => 0
  | x :: xs => xs.foldl min x

/-- Maximum of a nonempty rational list (0 on the empty list). -/
def listMaxQ (l : List ℚ) : ℚ :=
  match l with
  | [] => 0
  | x :: xs => xs.foldl max x

/-- Embedding of `select_candidate_points(last_point, points)`: the points
strictly beyond `last_point` in both time and velocity. -/
def select_candidate_points (last_point : ℚ × ℚ) (points : List (ℚ × ℚ)) :
    List (ℚ × ℚ) :=
  points.filter fun p => decide (last_point.1 < p.1 ∧ last_point.2 < p.2)

/-- Linear interpolation with extrapolation at `x` from control points `pts`
(assumed sorted by first coordinate), exactly as scipy's `interp1d` with
`fill_value="extrapolate"`: `searchsorted` left insertion index clipped to
`[1, len-1]`, then the segment line through the two bracketing points. -/
def interpLinear (pts : List (ℚ × ℚ)) (x : ℚ) : ℚ :=
  let idx := min (max ((pts.map Prod.fst).findIdx fun a => decide (x ≤ a)) 1)
    (pts.length - 1)
  let lo := pts.getD (idx - 1) (0, 0)
  let hi := pts.getD idx (0, 0)
  lo.2 + (hi.2 - lo.2) / (hi.1 - lo.1) * (x - lo.1)

/-- Embedding of `interpolate_velocities(points, times)`.  scipy's `interp1d`
with the default linear kind raises `ValueError` unless it is given at least
two control points, modelled by `none`; with `assume_sorted=False` (the
default) it first sorts the control points by time. -/
def interpolate_velocities (points : List (ℚ × ℚ)) (times : List ℚ) :
    Option (List ℚ) :=
  if points.length < 2 then none
  else
    let sorted := points.mergeSort fun a b => decide (a.1 ≤ b.1)
    some (times.map fun t => interpLinear sorted t)

/-- Embedding of `calc_trace_metric(semblance, points, times, velocities)`:
mean over all time samples of the panel value at the nearest-velocity index
of the interpolated velocity curve. -/
def calc_trace_metric (semblance : List (List ℚ)) (points : List (ℚ × ℚ))
    (times velocities : List ℚ) : Option ℚ :=
  (interpolate_velocities points times).map fun interp =>
    ((List.range semblance.length).map fun t =>
      (semblance.getD t []).getD (argminAbs velocities (interp.getD t 0)) 0).sum /
    semblance.length

/-- Collects a list of optional values, failing if any entry failed; this
models a Python list comprehension in which any element may raise. -/
def sequenceOptions {α : Type} : List (Option α) → Option (List α)
  | [] => some []
  | o :: rest => o.bind fun x => (sequenceOptions rest).map fun xs => x :: xs

/-- Embedding of the recursive `find_optimal_trace`, made structural on an
explicit recursion-depth bound `fuel`; `fuel = 0` returns `none`, a case that
is never reached when `fuel` exceeds the candidate count (proved below).
Python's `max(traces, key=...)` keeps the first element among ties, embedded
by the strict-improvement fold. -/
def findOptimalTraceFuel (fuel : ℕ) (semblance : List (List ℚ))
    (selected_points points : List (ℚ × ℚ)) (times velocities : List ℚ) :
    Option (List (ℚ × ℚ) × ℚ) :=
  match fuel with
  | 0 => none
  | fuel + 1 =>
    let candidate_list := select_candidate_points (selected_points.getLastD (0, 0)) points
    if candidate_list.isEmpty then
      (calc_trace_metric semblance selected_points times velocities).map
        fun m => (selected_points, m)
    else
      (sequenceOptions (candidate_list.map fun point =>
        findOptimalTraceFuel fuel semblance (selected_points ++ [point]) points
          times velocities)).bind
        fun traces =>
          match traces with
          | [] => none
          | t :: rest =>
            some (rest.foldl (fun best x => if best.2 < x.2 then x else best) t)

/-- Embedding of `find_optimal_trace(semblance, selected_points, points,
times, velocities)`: the fuel `points.length + 1` bounds the recursion depth,
which suffices because every recursive call strictly shrinks the candidate
set. -/
def find_optimal_trace (semblance : List (List ℚ))
    (selected_points points : List (ℚ × ℚ)) (times velocities : List ℚ) :
    Option (List (ℚ × ℚ) × ℚ) :=
  findOptimalTraceFuel (points.length + 1) semblance selected_points points
    times velocities

/-- scipy `mode='reflect'` boundary index folding (`d c b a | a b c d | d c b a`). -/
def reflectIdx (n : ℕ) (k : ℤ) : ℕ :=
  let m := (k % (2 * (n : ℤ))).toNat
  if m < n then m else 2 * n - 1 - m

/-- The 1-D window of a size-`s` filter centred at `i`: scipy places
`s / 2` taps to the left and `s - s/2 - 1` to the right. -/
def windowIdxs (s i : ℕ) : List ℤ :=
  (List.range s).map fun j => (i : ℤ) + (j : ℤ) - ((s / 2 : ℕ) : ℤ)

/-- One output cell of scipy's separable 2-D `maximum_filter` with sizes
`(s1, s2)` and reflect boundary handling. -/
def maxFilterCell (panel : List (List ℚ)) (n m s1 s2 i j : ℕ) : ℚ :=
  listMaxQ ((windowIdxs s1 i).map fun u =>
    listMaxQ ((windowIdxs s2 j).map fun v =>
      (panel.getD (reflectIdx n u) []).getD (reflectIdx m v) 0))

/-- `scipy.ndimage.maximum_filter(panel, size=(s1, s2))` on a rectangular
panel. -/
def maximum_filter (panel : List (List ℚ)) (s1 s2 : ℕ) : List (List ℚ) :=
  (List.range panel.length).map fun i =>
    (List.range (panel.headD []).length).map fun j =>
      maxFilterCell panel panel.length (panel.headD []).length s1 s2 i j

/-- `np.isclose` with its default tolerances `rtol=1e-5`, `atol=1e-8`. -/
def isclose (a b : ℚ) : Bool :=
  decide (|a - b| ≤ 1 / 100000000 + (1 / 100000) * |b|)

/-- Embedding of `find_local_maximas(semblance, times, velocities,
area_factor)`.  The filter sizes are `int(area_factor * len)` per axis;
scipy's separable `maximum_filter` applies `maximum_filter1d` only along
axes whose size exceeds one and skips the rest (the filter is the identity
along a size-`0`-or-`1` axis), so each axis size is clamped to at least one,
which a size-one window realises exactly.  Matches are listed in row-major
order as `np.where` produces them. -/
def find_local_maximas (semblance : List (List ℚ)) (times velocities : List ℚ)
    (area_factor : ℚ) : List (ℚ × ℚ) :=
  let s1 := (⌊area_factor * (times.length : ℚ)⌋).toNat
  let s2 := (⌊area_factor * (velocities.length : ℚ)⌋).toNat
  let filt := maximum_filter semblance (max s1 1) (max s2 1)
  ((List.range semblance.length).map fun i =>
    (((List.range (semblance.headD []).length).filter fun j =>
      isclose ((filt.getD i []).getD j 0) ((semblance.getD i []).getD j 0)).map
        fun j => (times.getD i 0, velocities.getD j 0))).flatten

/-- Embedding of `calc_velocity_model(semblance, times, velocities,
area_factor)`: seed the search at `(times.min(), velocities.min())` and run
the exhaustive monotone path search over the detected local maxima. -/
def calc_velocity_model (semblance : List (List ℚ)) (times velocities : List ℚ)
    (area_factor : ℚ) : Option (List (ℚ × ℚ) × ℚ) :=
  find_optimal_trace semblance [(listMinQ times, listMinQ velocities)]
    (find_local_maximas semblance times velocities area_factor) times velocities

/-! Lemmas about list access and slices. -/

theorem getD_range_map {α : Type} (f : ℕ → α) (n i : ℕ) (d : α) (h : i < n) :
    ((List.range n).map f).getD i d = f i := by
  rw [List.getD_eq_getElem?_getD, List.getElem?_map, List.getElem?_range h]
  rfl

theorem getD_map {α β : Type} (f : α → β) (l : List α) (i : ℕ) (d : β) (d' : α)
    (h : i < l.length) : (l.map f).getD i d = f (l.getD i d') := by
  rw [List.getD_eq_getElem?_getD, List.getElem?_map, List.getD_eq_getElem?_getD,
    List.getElem?_eq_getElem h]
  rfl

theorem list_sum_eq_sum_getD (l : List ℚ) :
    l.sum = ∑ k in Finset.range l.length, l.getD k 0 := by
  induction l with
  | nil => simp
  | cons x xs ih =>
    rw [List.sum_cons, List.length_cons, Finset.sum_range_succ', ih]
    simp [add_comm]

theorem windowSlice_getD (l : List ℚ) (lo hi k : ℕ)
    (hk : k < (windowSlice l lo hi).length) :
    (windowSlice l lo hi).getD k 0 = l.getD (lo + k) 0 := by
  simp only [windowSlice, List.length_take, List.length_drop, lt_min_iff] at hk
  simp only [windowSlice, List.getD_eq_getElem?_getD, List.getElem?_take,
    List.getElem?_drop, if_pos hk.1]

theorem windowSlice_length (l : List ℚ) (lo hi : ℕ) :
    (windowSlice l lo hi).length = min (hi - lo) (l.length - lo) := by
  simp [windowSlice]

theorem windowSlice_sum (l : List ℚ) (lo hi : ℕ) :
    (windowSlice l lo hi).sum = ∑ k in Finset.Ico lo (min hi l.length), l.getD k 0 := by
  rw [list_sum_eq_sum_getD, windowSlice_length, Finset.sum_Ico_eq_sum_range]
  rcases le_or_lt (min hi l.length) lo with hle | hlt
  · have h1 : min (hi - lo) (l.length - lo) = 0 := by omega
    have h2 : min hi l.length - lo = 0 := by omega
    rw [h1, h2]
    simp
  · have h2 : min hi l.length - lo = min (hi - lo) (l.length - lo) := by omega
    rw [h2]
    refine Finset.sum_congr rfl fun k hk => ?_
    rw [windowSlice_getD]
    rw [windowSlice_length]
    exact Finset.mem_range.mp hk

theorem windowSlice_map {α β : Type} (f : α → β) (l : List α) (lo hi : ℕ) :
    windowSlice (l.map f) lo hi = (windowSlice l lo hi).map f := by
  simp [windowSlice, List.map_take, List.map_drop]

theorem windowSlice_mem {α : Type} (l : List α) (lo hi : ℕ) (a : α)
    (ha : a ∈ windowSlice l lo hi) : a ∈ l :=
  ((List.take_sublist _ _).trans (List.drop_sublist _ _)).mem ha

/-! The discrete Cauchy–Schwarz bound used for cell-wise semblance bounds. -/

theorem two_mul_sum_le (x : ℚ) (xs : List ℚ) :
    2 * x * xs.sum ≤ (xs.length : ℚ) * x ^ 2 + (xs.map fun y => y ^ 2).sum := by
  induction xs with
  | nil => simp
  | cons y ys ih =>
    have hxy : 2 * x * y ≤ x ^ 2 + y ^ 2 := two_mul_le_add_sq x y
    simp only [List.sum_cons, List.length_cons, List.map_cons]
    push_cast
    nlinarith [ih, hxy]

theorem sq_sum_le_length_mul_sum_sq (r : List ℚ) :
    r.sum ^ 2 ≤ (r.length : ℚ) * (r.map fun x => x ^ 2).sum := by
  induction r with
  | nil => simp
  | cons x xs ih =>
    have h2 := two_mul_sum_le x xs
    simp only [List.sum_cons, List.length_cons, List.map_cons]
    push_cast
    nlinarith [ih, h2]

/-! Lemmas about the bound helpers on constant (full-coverage) bound lists. -/

theorem firstIdxOf?_replicate_eq (k a : ℕ) :
    firstIdxOf? (List.replicate (k + 1) a) a = some 0 := by
  simp [List.replicate_succ, firstIdxOf?]

theorem firstIdxOf?_replicate_ne (k a j : ℕ) (h : a ≠ j) :
    firstIdxOf? (List.replicate k a) j = none := by
  induction k with
  | zero => rfl
  | succ k ih => simp [List.replicate_succ, firstIdxOf?, h, ih]

theorem tLow_replicate (n a j : ℕ) : tLow (List.replicate n a) j = 0 := by
  rcases eq_or_ne a j with rfl | h
  · cases n with
    | zero => rfl
    | succ k => rw [tLow, firstIdxOf?_replicate_eq]; rfl
  · rw [tLow, firstIdxOf?_replicate_ne _ _ _ h]
    rfl

theorem tUp_replicate (n a j m : ℕ) (hn : 0 < n) (hm : m = n) :
    tUp (List.replicate n a) m j = n - 1 := by
  rcases eq_or_ne a j with rfl | h
  · obtain ⟨k, rfl⟩ : ∃ k, n = k + 1 := ⟨n - 1, by omega⟩
    rw [tUp, lastIdxOf?, List.reverse_replicate, firstIdxOf?_replicate_eq]
    simp
  · rw [tUp, lastIdxOf?, List.reverse_replicate, firstIdxOf?_replicate_ne _ _ _ h, hm]
    rfl

theorem foldl_min_replicate (k a : ℕ) : (List.replicate k a).foldl min a = a := by
  induction k with
  | zero => rfl
  | succ k ih => rw [List.replicate_succ, List.foldl_cons, min_self, ih]

theorem foldl_max_replicate (k a : ℕ) : (List.replicate k a).foldl max a = a := by
  induction k with
  | zero => rfl
  | succ k ih => rw [List.replicate_succ, List.foldl_cons, max_self, ih]

theorem natListMin_replicate (n a : ℕ) (hn : 0 < n) :
    natListMin (List.replicate n a) = a := by
  obtain ⟨k, rfl⟩ : ∃ k, n = k + 1 := ⟨n - 1, by omega⟩
  rw [List.replicate_succ, natListMin, foldl_min_replicate]

theorem natListMax_replicate (n a : ℕ) (hn : 0 < n) :
    natListMax (List.replicate n a) = a := by
  obtain ⟨k, rfl⟩ : ∃ k, n = k + 1 := ⟨n - 1, by omega⟩
  rw [List.replicate_succ, natListMax, foldl_max_replicate]

/-! Structural facts about `correct_time` and the semblance cells. -/

theorem correct_time_length (seismogram : List (List ℚ)) (time : ℚ)
    (offsets : List ℚ) (velocity dt : ℚ) :
    (correct_time seismogram time offsets velocity dt).length = offsets.length := by
  simp [correct_time]

theorem nmoGather_row_length (seismogram : List (List ℚ)) (times offsets : List ℚ)
    (velocity dt : ℚ) (r : List ℚ)
    (hr : r ∈ nmoGather seismogram times offsets velocity dt) :
    r.length = offsets.length := by
  obtain ⟨t, _, rfl⟩ := List.mem_map.mp hr
  exact correct_time_length _ _ _ _ _

theorem semblanceFrac_nonneg_le_one (nmo : List (List ℚ)) (m lo hi : ℕ)
    (hrows : ∀ r ∈ nmo, r.length = m) :
    0 ≤ semblanceFrac (nmo.map fun r => r.sum ^ 2)
        (nmo.map fun r => (r.map fun x => x ^ 2).sum) m lo hi eps ∧
      semblanceFrac (nmo.map fun r => r.sum ^ 2)
        (nmo.map fun r => (r.map fun x => x ^ 2).sum) m lo hi eps ≤ 1 := by
  rw [semblanceFrac, windowSlice_map, windowSlice_map]
  set s := windowSlice nmo lo hi with hs
  have hsub : ∀ r ∈ s, r ∈ nmo := fun r hr => windowSlice_mem _ _ _ _ hr
  have hA : (0 : ℚ) ≤ (s.map fun r => r.sum ^ 2).sum := by
    refine List.sum_nonneg fun x hx => ?_
    obtain ⟨r, _, rfl⟩ := List.mem_map.mp hx
    positivity
  have hB : (0 : ℚ) ≤ (s.map fun r => (r.map fun x => x ^ 2).sum).sum := by
    refine List.sum_nonneg fun x hx => ?_
    obtain ⟨r, _, rfl⟩ := List.mem_map.mp hx
    refine List.sum_nonneg fun y hy => ?_
    obtain ⟨z, _, rfl⟩ := List.mem_map.mp hy
    positivity
  have hAB : (s.map fun r => r.sum ^ 2).sum ≤
      (m : ℚ) * (s.map fun r => (r.map fun x => x ^ 2).sum).sum := by
    rw [← List.sum_map_mul_left]
    refine List.sum_le_sum fun r hr => ?_
    have hlen : r.length = m := hrows r (hsub r hr)
    calc r.sum ^ 2 ≤ (r.length : ℚ) * (r.map fun x => x ^ 2).sum :=
          sq_sum_le_length_mul_sum_sq r
      _ = (m : ℚ) * (r.map fun x => x ^ 2).sum := by rw [hlen]
  have heps : (0 : ℚ) < eps := by norm_num [eps]
  have hden : (0 : ℚ) < (m : ℚ) * (s.map fun r => (r.map fun x => x ^ 2).sum).sum + eps := by
    have : (0 : ℚ) ≤ (m : ℚ) * (s.map fun r => (r.map fun x => x ^ 2).sum).sum :=
      mul_nonneg (by positivity) hB
    linarith
  constructor
  · exact div_nonneg hA hden.le
  · rw [div_le_one hden]
    linarith

/-! Characterisation of `ratSqrtFloor` and the bridge to the real square
root, used to verify the index arithmetic of `correct_time`. -/

theorem ratSqrtFloor_sq_le (q : ℚ) (hq : 0 ≤ q) :
    ((ratSqrtFloor q : ℚ)) ^ 2 ≤ q := by
  set a : ℕ := q.num.toNat with ha
  set b : ℕ := q.den with hb
  have hbpos : 0 < b := q.den_pos
  have hnum : (a : ℤ) = q.num := Int.toNat_of_nonneg (Rat.num_nonneg.mpr hq)
  have hqab : q = (a : ℚ) / (b : ℚ) := by
    rw [← Rat.num_div_den q]
    congr 1
    · rw [← hnum]
      push_cast
      rfl
  set k : ℕ := Nat.sqrt (a * b) / b with hk
  have h1 : k * b ≤ Nat.sqrt (a * b) := Nat.div_mul_le_self _ _
  have h2 : Nat.sqrt (a * b) * Nat.sqrt (a * b) ≤ a * b := Nat.sqrt_le _
  have h3 : k ^ 2 * b ≤ a := by
    have h4 : (k * b) * (k * b) ≤ a * b := le_trans (Nat.mul_le_mul h1 h1) h2
    have h5 : (k ^ 2 * b) * b ≤ a * b := by nlinarith
    exact Nat.le_of_mul_le_mul_right h5 hbpos
  have : ratSqrtFloor q = k := rfl
  rw [this, hqab, le_div_iff₀ (by exact_mod_cast hbpos)]
  exact_mod_cast h3

theorem lt_ratSqrtFloor_succ_sq (q : ℚ) (hq : 0 ≤ q) :
    q < ((ratSqrtFloor q : ℚ) + 1) ^ 2 := by
  set a : ℕ := q.num.toNat with ha
  set b : ℕ := q.den with hb
  have hbpos : 0 < b := q.den_pos
  have hnum : (a : ℤ) = q.num := Int.toNat_of_nonneg (Rat.num_nonneg.mpr hq)
  have hqab : q = (a : ℚ) / (b : ℚ) := by
    rw [← Rat.num_div_den q]
    congr 1
    · rw [← hnum]
      push_cast
      rfl
  set s : ℕ := Nat.sqrt (a * b) with hsdef
  set k : ℕ := s / b with hk
  have h1 : a * b < (s + 1) * (s + 1) := Nat.lt_succ_sqrt _
  have h2 : s < (k + 1) * b := by
    have hmod : s % b < b := Nat.mod_lt s hbpos
    have hdm : b * (s / b) + s % b = s := Nat.div_add_mod s b
    rw [← hk] at hdm
    nlinarith [hdm, hmod]
  have h3 : (s + 1) ≤ (k + 1) * b := h2
  have h4 : a * b < ((k + 1) * b) * ((k + 1) * b) :=
    lt_of_lt_of_le h1 (Nat.mul_le_mul h3 h3)
  have h5 : a < (k + 1) ^ 2 * b := by
    have h6 : a * b < ((k + 1) ^ 2 * b) * b := by nlinarith
    exact Nat.lt_of_mul_lt_mul_right h6
  have : ratSqrtFloor q = k := rfl
  rw [this, hqab, div_lt_iff₀ (by exact_mod_cast hbpos)]
  exact_mod_cast h5

theorem ratSqrtFloor_eq_floor_real_sqrt (q : ℚ) (hq : 0 ≤ q) :
    ((ratSqrtFloor q : ℤ)) = ⌊Real.sqrt ((q : ℝ))⌋ := by
  have hqr : (0 : ℝ) ≤ (q : ℝ) := by exact_mod_cast hq
  symm
  rw [Int.floor_eq_iff]
  constructor
  · apply Real.le_sqrt_of_sq_le
    have := ratSqrtFloor_sq_le q hq
    push_cast
    exact_mod_cast this
  · rw [Real.sqrt_lt' (by positivity)]
    have := lt_ratSqrtFloor_succ_sq q hq
    push_cast
    exact_mod_cast this

theorem corrIdx_eq_floor (time offset velocity dt : ℚ) (hdt : 0 < dt) :
    corrIdx time offset velocity dt =
      (⌊Real.sqrt ((time : ℝ) ^ 2 + (offset : ℝ) ^ 2 / (velocity : ℝ) ^ 2) /
          (dt : ℝ)⌋).toNat := by
  have hx : (0 : ℚ) ≤ time ^ 2 + offset ^ 2 / velocity ^ 2 := by positivity
  have hq : (0 : ℚ) ≤ (time ^ 2 + offset ^ 2 / velocity ^ 2) / dt ^ 2 := by positivity
  have hcast : (((time ^ 2 + offset ^ 2 / velocity ^ 2) / dt ^ 2 : ℚ) : ℝ) =
      ((time ^ 2 + offset ^ 2 / velocity ^ 2 : ℚ) : ℝ) / ((dt : ℝ)) ^ 2 := by
    push_cast
    ring
  have hsqrt : Real.sqrt (((time ^ 2 + offset ^ 2 / velocity ^ 2) / dt ^ 2 : ℚ)) =
      Real.sqrt ((time ^ 2 + offset ^ 2 / velocity ^ 2 : ℚ)) / (dt : ℝ) := by
    rw [hcast, Real.sqrt_div (by exact_mod_cast hx), Real.sqrt_sq (by exact_mod_cast hdt.le)]
  have hc2 : ((time ^ 2 + offset ^ 2 / velocity ^ 2 : ℚ) : ℝ) =
      (time : ℝ) ^ 2 + (offset : ℝ) ^ 2 / (velocity : ℝ) ^ 2 := by
    push_cast
    ring
  rw [corrIdx, ← hc2, ← hsqrt, ← ratSqrtFloor_eq_floor_real_sqrt _ hq]
  simp

/-! Lemmas about the monotone candidate filter and the recursive search. -/

theorem filter_length_mono {α : Type} (l : List α) (q p : α → Bool)
    (himp : ∀ x, q x = true → p x = true) :
    (l.filter q).length ≤ (l.filter p).length := by
  induction l with
  | nil => simp
  | cons b xs ih =>
    rw [List.filter_cons, List.filter_cons]
    cases hqx : q b with
    | false =>
      cases hpx : p b
      · simpa using ih
      · simp only [if_true, List.length_cons, Bool.false_eq_true, if_false]
        omega
    | true =>
      rw [himp b hqx]
      simpa using ih

theorem filter_length_lt {α : Type} (l : List α) (q p : α → Bool) (a : α)
    (ha : a ∈ l) (hpa : p a = true) (hqa : q a = false)
    (himp : ∀ x, q x = true → p x = true) :
    (l.filter q).length < (l.filter p).length := by
  induction l with
  | nil => cases ha
  | cons b xs ih =>
    rw [List.filter_cons, List.filter_cons]
    rcases List.mem_cons.mp ha with rfl | hmem
    · rw [hpa, hqa]
      have := filter_length_mono xs q p himp
      simp only [if_true, Bool.false_eq_true, if_false, List.length_cons]
      omega
    · cases hqx : q b with
      | false =>
        cases hpx : p b
        · simpa using ih hmem
        · have := ih hmem
          simp only [if_true, Bool.false_eq_true, if_false, List.length_cons]
          omega
      | true =>
        rw [himp b hqx]
        simpa using ih hmem

/-- The pair order used by the path search: strictly later in time and
strictly faster. -/
def lt2 (a b : ℚ × ℚ) : Prop := a.1 < b.1 ∧ a.2 < b.2

theorem lt2_trans {a b c : ℚ × ℚ} (h1 : lt2 a b) (h2 : lt2 b c) : lt2 a c :=
  ⟨h1.1.trans h2.1, h1.2.trans h2.2⟩

theorem lt2_fst {a b : ℚ × ℚ} (h : lt2 a b) : a.1 < b.1 := by
  obtain ⟨h1, _⟩ := h
  exact h1

theorem mem_select_candidate_points {last q : ℚ × ℚ} {points : List (ℚ × ℚ)}
    (hq : q ∈ select_candidate_points last points) : q ∈ points ∧ lt2 last q := by
  have h := List.mem_filter.mp hq
  have h2 : last.1 < q.1 ∧ last.2 < q.2 := of_decide_eq_true h.2
  exact ⟨h.1, h2⟩

theorem scp_length_lt (q last : ℚ × ℚ) (points : List (ℚ × ℚ))
    (hq : q ∈ select_candidate_points last points) :
    (select_candidate_points q points).length <
      (select_candidate_points last points).length := by
  obtain ⟨hmem, hlast⟩ := mem_select_candidate_points hq
  refine filter_length_lt points _ _ q hmem ?_ ?_ ?_
  · exact decide_eq_true (show last.1 < q.1 ∧ last.2 < q.2 from hlast)
  · simp [lt_irrefl]
  · intro x hx
    have hx' : q.1 < x.1 ∧ q.2 < x.2 := of_decide_eq_true hx
    exact decide_eq_true ⟨hlast.1.trans hx'.1, hlast.2.trans hx'.2⟩

theorem scp_length_le (last : ℚ × ℚ) (points : List (ℚ × ℚ)) :
    (select_candidate_points last points).length ≤ points.length :=
  List.length_filter_le _ _

theorem sequenceOptions_length {α : Type} (l : List (Option α)) (ts : List α)
    (h : sequenceOptions l = some ts) : ts.length = l.length := by
  induction l generalizing ts with
  | nil =>
    simp only [sequenceOptions, Option.some.injEq] at h
    subst h
    rfl
  | cons o rest ih =>
    simp only [sequenceOptions] at h
    rcases o with _ | x
    · simp at h
    · simp only [Option.some_bind, Option.map_eq_some'] at h
      obtain ⟨xs, hxs, rfl⟩ := h
      simp [ih _ hxs]

theorem sequenceOptions_mem {α : Type} (l : List (Option α)) (ts : List α)
    (h : sequenceOptions l = some ts) : ∀ x ∈ ts, some x ∈ l := by
  induction l generalizing ts with
  | nil =>
    simp only [sequenceOptions, Option.some.injEq] at h
    subst h
    intro x hx
    cases hx
  | cons o rest ih =>
    simp only [sequenceOptions] at h
    rcases o with _ | y
    · simp at h
    · simp only [Option.some_bind, Option.map_eq_some'] at h
      obtain ⟨xs, hxs, rfl⟩ := h
      intro x hx
      rcases List.mem_cons.mp hx with rfl | hmem
      · exact List.mem_cons_self _ _
      · exact List.mem_cons_of_mem _ (ih _ hxs _ hmem)

theorem foldl_best_mem (rest : List (List (ℚ × ℚ) × ℚ)) (t : List (ℚ × ℚ) × ℚ) :
    rest.foldl (fun best x => if best.2 < x.2 then x else best) t ∈ t :: rest := by
  induction rest generalizing t with
  | nil => simp
  | cons y ys ih =>
    rw [List.foldl_cons]
    rcases List.mem_cons.mp (ih (if t.2 < y.2 then y else t)) with heq | hmem
    · rw [heq]
      split
      · exact List.mem_cons_of_mem _ (List.mem_cons_self _ _)
      · exact List.mem_cons_self _ _
    · exact List.mem_cons_of_mem _ (List.mem_cons_of_mem _ hmem)

theorem getLastD_mem {α : Type} : ∀ (l : List α) (d : α), l ≠ [] → l.getLastD d ∈ l
  | [], _, h => absurd rfl h
  | [x], _, _ => by simp
  | x :: y :: ys, d, _ => by
    rw [List.getLastD_cons]
    exact List.mem_cons_of_mem _ (getLastD_mem (y :: ys) x (by simp))

theorem getLastD_irrel {α : Type} : ∀ (l : List α) (d d' : α), l ≠ [] →
    l.getLastD d = l.getLastD d'
  | [], _, _, h => absurd rfl h
  | [_], _, _, _ => rfl
  | _ :: _ :: _, _, _, _ => rfl

theorem rel_getLastD_of_mem (sp : List (ℚ × ℚ)) (hp : List.Pairwise lt2 sp)
    (a : ℚ × ℚ) (ha : a ∈ sp) : a = sp.getLastD (0, 0) ∨ lt2 a (sp.getLastD (0, 0)) := by
  induction sp with
  | nil => cases ha
  | cons x xs ih =>
    rcases xs with _ | ⟨y, ys⟩
    · rcases List.mem_cons.mp ha with rfl | h
      · left
        rfl
      · cases h
    · have hlast : (x :: y :: ys).getLastD (0, 0) = (y :: ys).getLastD (0, 0) := by
        rw [List.getLastD_cons]
        exact getLastD_irrel _ x (0, 0) (by simp)
      rw [hlast]
      rcases List.mem_cons.mp ha with rfl | hmem
      · right
        have hrel := (List.pairwise_cons.mp hp).1
        exact hrel _ (getLastD_mem (y :: ys) (0, 0) (by simp))
      · exact ih (List.pairwise_cons.mp hp).2 hmem

theorem pairwise_append_last (sp : List (ℚ × ℚ)) (q : ℚ × ℚ)
    (hp : List.Pairwise lt2 sp) (hq : lt2 (sp.getLastD (0, 0)) q) :
    List.Pairwise lt2 (sp ++ [q]) := by
  rw [List.pairwise_append]
  refine ⟨hp, List.pairwise_singleton _ _, ?_⟩
  intro a ha b hb
  rw [List.mem_singleton.mp hb]
  rcases rel_getLastD_of_mem sp hp a ha with rfl | hlt
  · exact hq
  · exact lt2_trans hlt hq

theorem fot_fuel_irrel (semblance : List (List ℚ)) (points : List (ℚ × ℚ))
    (times velocities : List ℚ) :
    ∀ f₁ f₂ sp,
      (select_candidate_points (sp.getLastD (0, 0)) points).length < f₁ →
      (select_candidate_points (sp.getLastD (0, 0)) points).length < f₂ →
      findOptimalTraceFuel f₁ semblance sp points times velocities =
        findOptimalTraceFuel f₂ semblance sp points times velocities := by
  intro f₁
  induction f₁ with
  | zero =>
    intro f₂ sp h1 _
    exact absurd h1 (Nat.not_lt_zero _)
  | succ f₁ ih =>
    intro f₂ sp h1 h2
    cases f₂ with
    | zero => exact absurd h2 (Nat.not_lt_zero _)
    | succ f₂ =>
      rw [findOptimalTraceFuel, findOptimalTraceFuel]
      by_cases hc : (select_candidate_points (sp.getLastD (0, 0)) points).isEmpty
      · rw [if_pos hc, if_pos hc]
      · rw [if_neg hc, if_neg hc]
        have hmap : (select_candidate_points (sp.getLastD (0, 0)) points).map
            (fun point => findOptimalTraceFuel f₁ semblance (sp ++ [point]) points
              times velocities) =
          (select_candidate_points (sp.getLastD (0, 0)) points).map
            (fun point => findOptimalTraceFuel f₂ semblance (sp ++ [point]) points
              times velocities) := by
          refine List.map_congr_left fun q hq => ?_
          have hlt := scp_length_lt q _ points hq
          have hlast : (sp ++ [q]).getLastD (0, 0) = q := List.getLastD_concat _ _ _
          refine ih f₂ (sp ++ [q]) ?_ ?_
          · rw [hlast]
            omega
          · rw [hlast]
            omega
        rw [hmap]

/-- Paths returned by the bounded-fuel search extend the selected prefix and
stay strictly monotone in both coordinates, provided the prefix is. -/
theorem fot_shape (fuel : ℕ) (semblance : List (List ℚ)) (points : List (ℚ × ℚ))
    (times velocities : List ℚ) :
    ∀ sp path m, sp ≠ [] → List.Pairwise lt2 sp →
      findOptimalTraceFuel fuel semblance sp points times velocities = some (path, m) →
      (∃ rest, path = sp ++ rest) ∧ List.Pairwise lt2 path := by
  induction fuel with
  | zero =>
    intro sp path m _ _ h
    simp [findOptimalTraceFuel] at h
  | succ fuel ih =>
    intro sp path m hsp hp h
    rw [findOptimalTraceFuel] at h
    by_cases hc : (select_candidate_points (sp.getLastD (0, 0)) points).isEmpty
    · rw [if_pos hc] at h
      rw [Option.map_eq_some'] at h
      obtain ⟨m', _, heq⟩ := h
      cases heq
      exact ⟨⟨[], (List.append_nil sp).symm⟩, hp⟩
    · rw [if_neg hc] at h
      rw [Option.bind_eq_some] at h
      obtain ⟨ts, hts, hmatch⟩ := h
      cases ts with
      | nil => simp at hmatch
      | cons t rest =>
        simp only [Option.some.injEq] at hmatch
        have hmem : (path, m) ∈ t :: rest := by
          rw [← hmatch]
          exact foldl_best_mem rest t
        have hsome : some (path, m) ∈
            (select_candidate_points (sp.getLastD (0, 0)) points).map
              (fun point => findOptimalTraceFuel fuel semblance (sp ++ [point]) points
                times velocities) :=
          sequenceOptions_mem _ _ hts _ hmem
        obtain ⟨q, hqmem, hqeq⟩ := List.mem_map.mp hsome
        have hq2 := (mem_select_candidate_points hqmem).2
        have hsp' : sp ++ [q] ≠ [] := by simp
        have hp' : List.Pairwise lt2 (sp ++ [q]) := pairwise_append_last sp q hp hq2
        obtain ⟨⟨rest', hrest'⟩, hpw⟩ := ih (sp ++ [q]) path m hsp' hp' hqeq
        refine ⟨⟨q :: rest', ?_⟩, hpw⟩
        rw [hrest', List.append_assoc]
        rfl

/-! Claim theorems. -/

/-- C1 counterexample: with a corridor covering the whole grid and time range
(`lower_bounds = [0]`, `upper_bounds = [num_velocities - 1] = [0]`), the
bounded variant does not reproduce `calc_semblance`: at the final time sample
the full variant's window `[max(0,t-w) : min(n-1, t+w)]` excludes the last
index while the bounded variant's `[max(0,t_rel-w) : t_rel+w]` keeps it, so
the panels differ on a 1×1 gather with `window = 1`. -/
theorem c1_full_coverage_not_exact :
    calcPartialSemblance [[1]] [0] [0] [1] [0] [0] 1 1 ≠
      calc_semblance [[1]] [0] [0] [1] 1 1 := by
  with_unfolding_all decide

/-- C2 counterexample: the cell of `calc_semblance` differs from the claimed
inclusive-window formula on a 1×1 gather with `window = 1`: the code's Python
slice `[max(0,t-w) : min(n-1, t+w)]` is empty there (value 0), the claimed
inclusive window `[t-w, t+w] ∩ [0, n-1]` contains the sample (value
`10^6/(10^6+1)`). -/
theorem c2_window_formula_counterexample :
    ((calc_semblance [[1]] [0] [0] [1] 1 1).getD 0 []).getD 0 0 ≠
      claimedSemblanceCell [[1]] [0] [0] 1 1 1 0 := by
  with_unfolding_all decide

/-- C5 (code bug): on a panel whose only local maximum sits at the seed
position, the candidate list is empty and `calc_trace_metric` hands a single
control point to scipy's `interp1d`, which raises `ValueError` ("x and y
arrays must have at least 2 entries" for the linear kind) — modelled as
`none`.  The claim (and the spec) promise a graceful single-point result
instead. -/
theorem calc_velocity_model_raises_on_seed_only_peak :
    calc_velocity_model [[1, 7/8, 3/4], [7/8, 3/4, 5/8], [3/4, 5/8, 1/2]]
      [0, 1, 2] [1, 2, 3] 1 = none := by
  with_unfolding_all decide

/-- C6 (code bug): `calc_semblance` performs no shape validation.  With a
3-sample gather but a 2-sample time axis (and `window = 0`, for which the
energy windows are empty so the result is deterministic), it silently
returns a full 3×1 panel instead of failing fast. -/
theorem calc_semblance_no_shape_validation :
    calc_semblance [[1], [2], [3]] [0, 1] [0] [1] 1 0 = [[0], [0], [0]] := by
  with_unfolding_all decide

/-- C7 counterexample: multiplying every amplitude by 2 changes the panel,
because the `1e-6` guard in the denominator is not rescaled: the 2-sample
single-offset gather of ones gives cells `10^6/(10^6+1)` unscaled but
`4*10^6/(4*10^6+1)` scaled. -/
theorem c7_scaling_not_invariant :
    calc_semblance (scaleGather 2 [[1], [1]]) [0, 1] [0] [1] 1 1 ≠
      calc_semblance [[1], [1]] [0, 1] [0] [1] 1 1 := by
  with_unfolding_all decide

set_option maxRecDepth 40000 in
/-- C8 counterexample: on a constant 3×3 panel every cell is a local maximum,
a multi-point path is chosen, and the seed `(min times, min velocities) =
(0, 1)` is still the first element of the returned path — it is not absent. -/
theorem c8_seed_in_multipoint_path :
    calc_velocity_model [[1, 1, 1], [1, 1, 1], [1, 1, 1]] [0, 1, 2] [1, 2, 3] 1 =
      some ([(0, 1), (1, 2), (2, 3)], 1) ∧
    ((0 : ℚ), (1 : ℚ)) = (listMinQ [0, 1, 2], listMinQ [1, 2, 3]) ∧
    2 ≤ ([((0 : ℚ), (1 : ℚ)), (1, 2), (2, 3)]).length ∧
    ((0 : ℚ), (1 : ℚ)) ∈ ([((0 : ℚ), (1 : ℚ)), (1, 2), (2, 3)]) := by
  with_unfolding_all decide

/-- C9: there is a valid input — reference curve `[-10]`, ascending velocity
grid `[-10, -1]`, tolerance `1/2 ∈ [0, 1)` — on which `calc_bounds` returns
`lower_idx[0] = 1 > 0 = upper_idx[0]`: the element-wise ordering is not
guaranteed by construction. -/
theorem calc_bounds_ordering_can_invert :
    ((-10 : ℚ) < -1 ∧ (0 : ℚ) ≤ 1 / 2 ∧ (1 / 2 : ℚ) < 1) ∧
    (calc_bounds [(-10 : ℚ)] [(-10 : ℚ), -1] (1 / 2)).2.getD 0 0 <
      (calc_bounds [(-10 : ℚ)] [(-10 : ℚ), -1] (1 / 2)).1.getD 0 0 := by
  with_unfolding_all decide

/-- C10: the recursive search terminates, with recursion depth bounded by the
number of candidate points: any fuel strictly exceeding the count of
candidates compatible with the current prefix already computes the value of
`find_optimal_trace` (whose own fuel is `points.length + 1`), so the
exhaustive enumeration visits only finitely many prefixes. -/
theorem find_optimal_trace_depth_bound (semblance : List (List ℚ))
    (selected_points points : List (ℚ × ℚ)) (times velocities : List ℚ) (fuel : ℕ)
    (h : (select_candidate_points (selected_points.getLastD (0, 0)) points).length < fuel) :
    findOptimalTraceFuel fuel semblance selected_points points times velocities =
      find_optimal_trace semblance selected_points points times velocities := by
  rw [find_optimal_trace]
  refine fot_fuel_irrel semblance points times velocities fuel (points.length + 1)
    selected_points h ?_
  have := scp_length_le (selected_points.getLastD (0, 0)) points
  omega

/-- Witness for C10 at a concrete input. -/
theorem find_optimal_trace_depth_bound_witness :
    (select_candidate_points (([((0 : ℚ), (0 : ℚ))]).getLastD (0, 0)) []).length < 5 ∧
    findOptimalTraceFuel 5 [[1]] [((0 : ℚ), (0 : ℚ))] [] [0] [0] =
      find_optimal_trace [[1]] [((0 : ℚ), (0 : ℚ))] [] [0] [0] :=
  ⟨by with_unfolding_all decide,
    find_optimal_trace_depth_bound [[1]] [((0 : ℚ), (0 : ℚ))] [] [0] [0] 5
      (by with_unfolding_all decide)⟩

/-- C3: `correct_time` returns a row of length `num_offsets`; the entry for
offset `i` is `seismogram[idx, i]` where `idx` is
`sqrt(time² + offset²/velocity²)/dt` truncated toward zero (a floor, the
value being nonnegative), and 0 whenever `idx` is outside the time range.
The embedding is a pure function, so no input is mutated. -/
theorem correct_time_spec (seismogram : List (List ℚ)) (time : ℚ) (offsets : List ℚ)
    (velocity dt : ℚ) (hdt : 0 < dt) (i : ℕ) (hi : i < offsets.length) :
    (correct_time seismogram time offsets velocity dt).length = offsets.length ∧
    (correct_time seismogram time offsets velocity dt).getD i 0 =
      (if (⌊Real.sqrt ((time : ℝ) ^ 2 + ((offsets.getD i 0 : ℚ) : ℝ) ^ 2 /
              (velocity : ℝ) ^ 2) / (dt : ℝ)⌋).toNat < seismogram.length
       then (seismogram.getD
              ((⌊Real.sqrt ((time : ℝ) ^ 2 + ((offsets.getD i 0 : ℚ) : ℝ) ^ 2 /
                (velocity : ℝ) ^ 2) / (dt : ℝ)⌋).toNat) []).getD i 0
       else 0) := by
  refine ⟨correct_time_length _ _ _ _ _, ?_⟩
  rw [correct_time, getD_range_map _ _ _ _ hi]
  simp only [← corrIdx_eq_floor time (offsets.getD i 0) velocity dt hdt]

/-- Witness for C3 at a concrete input. -/
theorem correct_time_spec_witness :
    ((0 : ℚ) < 1 ∧ 1 < ([(0 : ℚ), 1]).length) ∧
    ((correct_time [[1, 2], [3, 4]] 1 [0, 1] 1 1).length = ([(0 : ℚ), 1]).length ∧
      (correct_time [[1, 2], [3, 4]] 1 [0, 1] 1 1).getD 1 0 =
        (if (⌊Real.sqrt (((1 : ℚ) : ℝ) ^ 2 + ((([(0 : ℚ), 1]).getD 1 0 : ℚ) : ℝ) ^ 2 /
                (((1 : ℚ)) : ℝ) ^ 2) / (((1 : ℚ)) : ℝ)⌋).toNat < ([[(1 : ℚ), 2], [3, 4]]).length
         then (([[(1 : ℚ), 2], [3, 4]]).getD
                ((⌊Real.sqrt (((1 : ℚ) : ℝ) ^ 2 + ((([(0 : ℚ), 1]).getD 1 0 : ℚ) : ℝ) ^ 2 /
                  (((1 : ℚ)) : ℝ) ^ 2) / (((1 : ℚ)) : ℝ)⌋).toNat) []).getD 1 0
         else 0)) :=
  ⟨⟨by norm_num, by decide⟩,
    correct_time_spec [[1, 2], [3, 4]] 1 [0, 1] 1 1 (by norm_num) 1 (by decide)⟩

/-- C4: every entry of a `calc_semblance` panel lies in `[0, 1]` — in
particular in the claimed `[0, 1 + δ]` with no epsilon-induced excess at all:
by Cauchy–Schwarz the windowed stack energy never exceeds `num_offsets`
times the windowed trace energy, and the denominator adds `eps > 0`. -/
theorem calc_semblance_entries_unit_interval (seismogram : List (List ℚ))
    (times offsets velocities : List ℚ) (dt : ℚ) (window : ℕ) (row : List ℚ)
    (hrow : row ∈ calc_semblance seismogram times offsets velocities dt window)
    (x : ℚ) (hx : x ∈ row) : 0 ≤ x ∧ x ≤ 1 := by
  rw [calc_semblance, calcSemblanceEps] at hrow
  obtain ⟨i, _, rfl⟩ := List.mem_map.mp hrow
  obtain ⟨v, _, rfl⟩ := List.mem_map.mp hx
  rw [semblanceAtEps]
  exact semblanceFrac_nonneg_le_one _ _ _ _
    (fun r hr => nmoGather_row_length seismogram times offsets v dt r hr)

/-- Witness for C4 at a concrete input. -/
theorem calc_semblance_entries_unit_interval_witness :
    ([(0 : ℚ)] ∈ calc_semblance [[1]] [0] [0] [1] 1 1 ∧ (0 : ℚ) ∈ [(0 : ℚ)]) ∧
    (0 ≤ (0 : ℚ) ∧ (0 : ℚ) ≤ 1) :=
  ⟨⟨by with_unfolding_all decide, by with_unfolding_all decide⟩,
    calc_semblance_entries_unit_interval [[1]] [0] [0] [1] 1 1 [0]
      (by with_unfolding_all decide) 0 (by with_unfolding_all decide)⟩

/-! Scaling lemmas for claim C7. -/

theorem getD_map_mul (c : ℚ) (r : List ℚ) (i : ℕ) :
    (r.map fun x => c * x).getD i 0 = c * r.getD i 0 := by
  rcases lt_or_ge i r.length with h | h
  · rw [getD_map _ _ _ _ 0 h]
  · rw [List.getD_eq_getElem?_getD, List.getD_eq_getElem?_getD,
      List.getElem?_eq_none (by simpa using h), List.getElem?_eq_none h]
    simp

theorem correct_time_scale (seismogram : List (List ℚ)) (time : ℚ)
    (offsets : List ℚ) (velocity dt c : ℚ) :
    correct_time (scaleGather c seismogram) time offsets velocity dt =
      (correct_time seismogram time offsets velocity dt).map fun x => c * x := by
  rw [correct_time, correct_time, List.map_map]
  refine List.map_congr_left fun i _ => ?_
  simp only [Function.comp_apply]
  have hlen : (scaleGather c seismogram).length = seismogram.length := by
    simp [scaleGather]
  rw [hlen]
  by_cases h : corrIdx time (offsets.getD i 0) velocity dt < seismogram.length
  · rw [if_pos h, if_pos h, scaleGather, getD_map _ _ _ _ [] h, getD_map_mul]
  · rw [if_neg h, if_neg h, mul_zero]

theorem nmoGather_scale (seismogram : List (List ℚ)) (times offsets : List ℚ)
    (velocity dt c : ℚ) :
    nmoGather (scaleGather c seismogram) times offsets velocity dt =
      (nmoGather seismogram times offsets velocity dt).map fun r =>
        r.map fun x => c * x := by
  rw [nmoGather, nmoGather, List.map_map]
  exact List.map_congr_left fun t _ => correct_time_scale seismogram t offsets velocity dt c

theorem sum_map_mul (c : ℚ) (l : List ℚ) : (l.map fun x => c * x).sum = c * l.sum := by
  have := List.sum_map_mul_left l (fun x => x) c
  simpa using this

theorem semblanceFrac_scale (s2 sq : List ℚ) (m lo hi : ℕ) (e c : ℚ) (hc : c ≠ 0) :
    semblanceFrac (s2.map fun a => c ^ 2 * a) (sq.map fun a => c ^ 2 * a) m lo hi e =
      semblanceFrac s2 sq m lo hi (e / c ^ 2) := by
  have hc2 : (c : ℚ) ^ 2 ≠ 0 := pow_ne_zero _ hc
  rw [semblanceFrac, semblanceFrac, windowSlice_map, windowSlice_map,
    sum_map_mul, sum_map_mul]
  rw [show (m : ℚ) * (c ^ 2 * (windowSlice sq lo hi).sum) + e =
      c ^ 2 * ((m : ℚ) * (windowSlice sq lo hi).sum + e / c ^ 2) by
    field_simp
    ring]
  exact mul_div_mul_left _ _ hc2

theorem semblanceAt_scale (seismogram : List (List ℚ)) (times offsets : List ℚ)
    (v dt : ℚ) (window i : ℕ) (e c : ℚ) (hc : c ≠ 0) :
    semblanceAtEps (scaleGather c seismogram) times offsets v dt window i e =
      semblanceAtEps seismogram times offsets v dt window i (e / c ^ 2) := by
  rw [semblanceAtEps, semblanceAtEps, nmoGather_scale]
  have hlen : (scaleGather c seismogram).length = seismogram.length := by
    simp [scaleGather]
  rw [hlen, List.map_map, List.map_map]
  have h1 : ((fun r : List ℚ => r.sum ^ 2) ∘ fun r : List ℚ => r.map fun x => c * x) =
      fun r : List ℚ => c ^ 2 * r.sum ^ 2 := by
    funext r
    simp only [Function.comp_apply, sum_map_mul]
    ring
  have h2 : ((fun r : List ℚ => (r.map fun x => x ^ 2).sum) ∘
        fun r : List ℚ => r.map fun x => c * x) =
      fun r : List ℚ => c ^ 2 * (r.map fun x => x ^ 2).sum := by
    funext r
    simp only [Function.comp_apply, List.map_map]
    have h3 : ((fun x : ℚ => x ^ 2) ∘ fun x : ℚ => c * x) =
        fun x : ℚ => c ^ 2 * x ^ 2 := by
      funext x
      simp [Function.comp_apply, mul_pow]
    rw [h3]
    have h4 : (fun x : ℚ => c ^ 2 * x ^ 2) =
        ((fun a : ℚ => c ^ 2 * a) ∘ fun x : ℚ => x ^ 2) := rfl
    rw [h4, ← List.map_map, sum_map_mul]
  rw [h1, h2]
  have h5 : (fun r : List ℚ => c ^ 2 * r.sum ^ 2) =
      ((fun a : ℚ => c ^ 2 * a) ∘ fun r : List ℚ => r.sum ^ 2) := rfl
  have h6 : (fun r : List ℚ => c ^ 2 * (r.map fun x => x ^ 2).sum) =
      ((fun a : ℚ => c ^ 2 * a) ∘ fun r : List ℚ => (r.map fun x => x ^ 2).sum) := rfl
  rw [h5, h6, ← List.map_map, ← List.map_map]
  exact semblanceFrac_scale _ _ _ _ _ _ _ hc

/-- C7 (amended): scaling every amplitude by `c > 0` is not a no-op on the
panel; it is exactly equivalent to dividing the `1e-6` denominator guard by
`c²`: `calc_semblance` on the scaled gather equals the eps-generalized
semblance of the original gather with guard `eps / c²`.  Exact invariance
fails only because the guard is fixed. -/
theorem calc_semblance_scaling_eps (seismogram : List (List ℚ))
    (times offsets velocities : List ℚ) (dt : ℚ) (window : ℕ) (c : ℚ)
    (hc : 0 < c) :
    calc_semblance (scaleGather c seismogram) times offsets velocities dt window =
      calcSemblanceEps seismogram times offsets velocities dt window (eps / c ^ 2) := by
  rw [calc_semblance, calcSemblanceEps, calcSemblanceEps]
  have hlen : (scaleGather c seismogram).length = seismogram.length := by
    simp [scaleGather]
  rw [hlen]
  refine List.map_congr_left fun i _ => ?_
  refine List.map_congr_left fun v _ => ?_
  exact semblanceAt_scale seismogram times offsets v dt window i eps c (ne_of_gt hc)

/-- Witness for C7's amended statement at a concrete input. -/
theorem calc_semblance_scaling_eps_witness :
    (0 : ℚ) < 2 ∧
    calc_semblance (scaleGather 2 [[1], [1]]) [0, 1] [0] [1] 1 1 =
      calcSemblanceEps [[1], [1]] [0, 1] [0] [1] 1 1 (eps / 2 ^ 2) :=
  ⟨by norm_num,
    calc_semblance_scaling_eps [[1], [1]] [0, 1] [0] [1] 1 1 2 (by norm_num)⟩

/-- C2 (amended): the panel cell of `calc_semblance` at `(t, v)` equals the
sum of stack energies over the half-open index range
`[max(0, t-window), min(n-1, t+window))` — the upper end is exclusive, so
index `t+window` and the final sample `n-1` are never included — divided by
`num_offsets` times the matching trace-energy sum plus `eps = 1e-6`, where
stack and trace energy come from the NMO-corrected rows. -/
theorem calc_semblance_cell_formula (seismogram : List (List ℚ))
    (times offsets velocities : List ℚ) (dt : ℚ) (window : ℕ)
    (hshape : times.length = seismogram.length) (t j : ℕ)
    (ht : t < seismogram.length) (hj : j < velocities.length) :
    ((calc_semblance seismogram times offsets velocities dt window).getD t []).getD j 0 =
      (∑ k in Finset.Ico (t - window) (min (seismogram.length - 1) (t + window)),
          ((correct_time seismogram (times.getD k 0) offsets (velocities.getD j 0) dt).sum) ^ 2) /
      (offsets.length *
        (∑ k in Finset.Ico (t - window) (min (seismogram.length - 1) (t + window)),
          ((correct_time seismogram (times.getD k 0) offsets (velocities.getD j 0) dt).map
            fun x => x ^ 2).sum) + eps) := by
  rw [calc_semblance, calcSemblanceEps, getD_range_map _ _ _ _ ht,
    getD_map _ _ _ _ 0 hj]
  rw [semblanceAtEps, semblanceFrac, windowSlice_sum, windowSlice_sum]
  have hnmolen : (nmoGather seismogram times offsets (velocities.getD j 0) dt).length =
      seismogram.length := by
    simp [nmoGather, hshape]
  have hlen1 : ((nmoGather seismogram times offsets (velocities.getD j 0) dt).map
      fun r => r.sum ^ 2).length = seismogram.length := by
    simpa using hnmolen
  have hlen2 : ((nmoGather seismogram times offsets (velocities.getD j 0) dt).map
      fun r => (r.map fun x => x ^ 2).sum).length = seismogram.length := by
    simpa using hnmolen
  rw [hlen1, hlen2]
  have hcollapse : min (min (seismogram.length - 1) (t + window)) seismogram.length =
      min (seismogram.length - 1) (t + window) := by
    omega
  rw [hcollapse]
  congr 1
  · refine Finset.sum_congr rfl fun k hk => ?_
    have hk2 := (Finset.mem_Ico.mp hk).2
    have hkn : k < (nmoGather seismogram times offsets (velocities.getD j 0) dt).length := by
      omega
    have hkt : k < times.length := by omega
    rw [getD_map _ _ _ _ [] hkn, nmoGather, getD_map _ _ _ _ 0 hkt]
  · congr 2
    refine Finset.sum_congr rfl fun k hk => ?_
    have hk2 := (Finset.mem_Ico.mp hk).2
    have hkn : k < (nmoGather seismogram times offsets (velocities.getD j 0) dt).length := by
      omega
    have hkt : k < times.length := by omega
    rw [getD_map _ _ _ _ [] hkn, nmoGather, getD_map _ _ _ _ 0 hkt]

/-- Witness for C2's amended statement at a concrete input. -/
theorem calc_semblance_cell_formula_witness :
    (([(0 : ℚ), 1]).length = ([[(1 : ℚ)], [2]]).length ∧ 0 < ([[(1 : ℚ)], [2]]).length ∧
      0 < ([(1 : ℚ)]).length) ∧
    ((calc_semblance [[1], [2]] [0, 1] [0] [1] 1 1).getD 0 []).getD 0 0 =
      (∑ k in Finset.Ico (0 - 1) (min (([[(1 : ℚ)], [2]]).length - 1) (0 + 1)),
          ((correct_time [[1], [2]] (([(0 : ℚ), 1]).getD k 0) [0] (([(1 : ℚ)]).getD 0 0) 1).sum) ^ 2) /
      (([(0 : ℚ)]).length *
        (∑ k in Finset.Ico (0 - 1) (min (([[(1 : ℚ)], [2]]).length - 1) (0 + 1)),
          ((correct_time [[1], [2]] (([(0 : ℚ), 1]).getD k 0) [0] (([(1 : ℚ)]).getD 0 0) 1).map
            fun x => x ^ 2).sum) + eps) :=
  ⟨⟨by decide, by decide, by decide⟩,
    calc_semblance_cell_formula [[1], [2]] [0, 1] [0] [1] 1 1 (by decide) 0 0
      (by decide) (by decide)⟩

/-- C1 (amended): under a corridor covering the entire velocity grid and time
range (`lower_bounds ≡ 0`, `upper_bounds ≡ num_velocities - 1`), the bounded
variant agrees cell-for-cell with `calc_semblance` at every `(t, v)` with
`t + window ≤ n - 1`.  (At the remaining cells, those within `window` of the
end of the time axis, the two variants genuinely differ — see the
counterexample — because the full variant's energy window excludes index
`n-1` while the bounded variant's does not.) -/
theorem calcPartialSemblance_full_coverage_agrees (seismogram : List (List ℚ))
    (times offsets velocities : List ℚ) (dt : ℚ) (window : ℕ)
    (hshape : times.length = seismogram.length) (hn : 0 < seismogram.length)
    (t j : ℕ) (ht : t < seismogram.length) (hj : j < velocities.length)
    (hw : t + window + 1 ≤ seismogram.length) :
    ((calcPartialSemblance seismogram times offsets velocities
        (List.replicate seismogram.length 0)
        (List.replicate seismogram.length (velocities.length - 1))
        dt window).getD t []).getD j 0 =
      ((calc_semblance seismogram times offsets velocities dt window).getD t []).getD j 0 := by
  rw [calc_semblance, calcSemblanceEps, getD_range_map _ _ _ _ ht,
    getD_map _ _ _ _ 0 hj]
  rw [calcPartialSemblance, getD_range_map _ _ _ _ ht, getD_range_map _ _ _ _ hj]
  have htl : tLow (List.replicate seismogram.length (velocities.length - 1)) j = 0 :=
    tLow_replicate _ _ _
  have htu : tUp (List.replicate seismogram.length 0) times.length j =
      seismogram.length - 1 :=
    tUp_replicate _ _ _ _ hn hshape
  have hmin : natListMin (List.replicate seismogram.length 0) = 0 :=
    natListMin_replicate _ _ hn
  have hmax : natListMax (List.replicate seismogram.length (velocities.length - 1)) =
      velocities.length - 1 :=
    natListMax_replicate _ _ hn
  simp only [htl, htu, hmin, hmax]
  rw [if_pos (by omega)]
  have hz : 0 - window = 0 := Nat.zero_sub window
  have hup : min (times.length - 1) (seismogram.length - 1 + window) =
      seismogram.length - 1 := by omega
  simp only [hz, hup, List.drop_zero, Nat.sub_zero]
  have htake : seismogram.length - 1 + 1 = times.length := by omega
  rw [htake, List.take_length]
  have hminr : min (seismogram.length - 1) (t + window) = t + window := by omega
  rw [semblanceAtEps, hminr]
  rfl

/-- Witness for C1's amended statement at a concrete input. -/
theorem calcPartialSemblance_full_coverage_agrees_witness :
    (([(0 : ℚ), 1]).length = ([[(1 : ℚ)], [2]]).length ∧ 0 < ([[(1 : ℚ)], [2]]).length ∧
      0 < ([(1 : ℚ)]).length ∧ 0 + 0 + 1 ≤ ([[(1 : ℚ)], [2]]).length) ∧
    ((calcPartialSemblance [[1], [2]] [0, 1] [0] [1]
        (List.replicate ([[(1 : ℚ)], [2]]).length 0)
        (List.replicate ([[(1 : ℚ)], [2]]).length (([(1 : ℚ)]).length - 1))
        1 0).getD 0 []).getD 0 0 =
      ((calc_semblance [[1], [2]] [0, 1] [0] [1] 1 0).getD 0 []).getD 0 0 :=
  ⟨⟨by decide, by decide, by decide, by decide⟩,
    calcPartialSemblance_full_coverage_agrees [[1], [2]] [0, 1] [0] [1] 1 0
      (by decide) (by decide) 0 0 (by decide) (by decide) (by decide)⟩

/-- C8 (amended): every path returned by `calc_velocity_model` is strictly
increasing in time (indeed in both coordinates), and its first element is
always the seed `(min(times), min(velocities))` — the implementation never
drops the seed, also when a multi-point path is chosen. -/
theorem calc_velocity_model_path_shape (semblance : List (List ℚ))
    (times velocities : List ℚ) (area_factor : ℚ) (path : List (ℚ × ℚ))
    (metric : ℚ)
    (h : calc_velocity_model semblance times velocities area_factor =
      some (path, metric)) :
    List.Pairwise (fun a b : ℚ × ℚ => a.1 < b.1) path ∧
      path.take 1 = [(listMinQ times, listMinQ velocities)] := by
  rw [calc_velocity_model, find_optimal_trace] at h
  obtain ⟨⟨rest, hrest⟩, hpw⟩ :=
    fot_shape _ semblance (find_local_maximas semblance times velocities area_factor)
      times velocities _ path metric (by simp) (List.pairwise_singleton _ _) h
  constructor
  · exact hpw.imp fun hab => lt2_fst hab
  · rw [hrest]
    rfl

set_option maxRecDepth 40000 in
/-- Witness for C8's amended statement at a concrete input. -/
theorem calc_velocity_model_path_shape_witness :
    calc_velocity_model [[1, 1, 1], [1, 1, 1], [1, 1, 1]] [0, 1, 2] [1, 2, 3] 1 =
      some ([(0, 1), (1, 2), (2, 3)], 1) ∧
    (List.Pairwise (fun a b : ℚ × ℚ => a.1 < b.1)
        ([((0 : ℚ), (1 : ℚ)), (1, 2), (2, 3)]) ∧
      ([((0 : ℚ), (1 : ℚ)), (1, 2), (2, 3)]).take 1 =
        [(listMinQ [0, 1, 2], listMinQ [1, 2, 3])]) :=
  ⟨by with_unfolding_all decide,
    calc_velocity_model_path_shape [[1, 1, 1], [1, 1, 1], [1, 1, 1]] [0, 1, 2]
      [1, 2, 3] 1 [(0, 1), (1, 2), (2, 3)] 1 (by with_unfolding_all decide)⟩

end SeismicPro
